import Mathlib

/-!
Verification development for the HARHN time-series forecasting model
(`src/models/HARHN.py`): a shallow embedding of the forward computation of
the recurrent-highway cell (`RHNCell`), the highway-state-gating layer
(`HSGLayer`), the encoder (`RHN`), the convolutional block (`ConvBlock`)
and the attention decoder (`HARHN`), over an arbitrary linear ordered
field (instantiated at `ℚ` for concrete evaluation and at `ℝ` for the
analytic facts about `tanh`, `sigmoid` and `softmax`).

Batched tensors are modelled as nested lists; the per-sample computation
of a batched PyTorch operation acts row-wise, so a batched layer is the
row-wise map/zip of the per-sample function.  `torch.stack` of a list of
tensors is the nested list itself, and `Tensor.permute` is modelled by
re-indexing over the ranges of the source dimensions.
-/

variable {α : Type} [LinearOrderedField α]

/-- A `torch.nn.Linear` layer: a weight matrix (list of rows) and a bias
vector.  A layer constructed with `bias=False` is modelled with a zero
bias vector. -/
structure Linear (α : Type) where
  weight : List (List α)
  bias : List α

/-- Dot product of two vectors (zip-with-multiply, then sum). -/
def dot (a b : List α) : α := (List.zipWith (fun x y => x * y) a b).sum

/-- Application of `nn.Linear` to a vector: each output entry is the dot product
of a weight row with the input plus the corresponding bias entry. -/
def Linear.apply (L : Linear α) (v : List α) : List α :=
  List.zipWith (fun row bi => dot row v + bi) L.weight L.bias

/-- Elementwise addition of two same-shape tensors (`+` in torch). -/
def eadd (a b : List α) : List α := List.zipWith (fun x y => x + y) a b

/-- Elementwise (Hadamard) product (`*` in torch). -/
def emul (a b : List α) : List α := List.zipWith (fun x y => x * y) a b

/-- The broadcast expression `1 - t` applied to a tensor. -/
def oneMinus (a : List α) : List α := a.map (fun v => 1 - v)

/-- The pointwise activation functions used by the model
(`torch.tanh`, `torch.sigmoid`, and `exp` as used inside `torch.softmax`),
kept abstract so that the structural claims can be evaluated over `ℚ`
while the analytic claims instantiate them with the real functions. -/
structure Acts (α : Type) where
  tanh : α → α
  sigmoid : α → α
  exp : α → α

/-- Parameters of `HSGLayer`: `W_R` (constructed with `bias=False`,
hence zero bias) and `W_F`. -/
structure HSGLayer (α : Type) where
  W_R : Linear α
  W_F : Linear α

/-- The body of `HSGLayer.forward`:
`g = sigmoid(W_R(s_prime_tm1) + W_F(s_l_t))`;
returns `g*s_prime_tm1 + (1 - g)*s_l_t`. -/
def HSGLayer.forward (g : HSGLayer α) (A : Acts α) (s_l_t s_prime_tm1 : List α) :
    List α :=
  let gate := (eadd (g.W_R.apply s_prime_tm1) (g.W_F.apply s_l_t)).map A.sigmoid
  eadd (emul gate s_prime_tm1) (emul (oneMinus gate) s_l_t)

/-- Parameters and configuration of `RHNCell`.  The recurrent weight
stacks `R_H`, `R_T`, `R_C` (`nn.ModuleList`s of `rec_depth` layers in the
source) are modelled as functions from the depth index; only indices
`< rec_depth` are ever used.  `W_C`/`R_C` exist only when
`couple_gates=False` in the source and are ignored by the coupled-mode
computation here; likewise `HSG` is used only when `use_HSG`. -/
structure RHNCell (α : Type) where
  rec_depth : ℕ
  n_units : ℕ
  couple_gates : Bool
  use_HSG : Bool
  W_H : Linear α
  W_T : Linear α
  W_C : Linear α
  R_H : ℕ → Linear α
  R_T : ℕ → Linear α
  R_C : ℕ → Linear α
  HSG : HSGLayer α

/-- The nonlinear candidate at depth `l`:
`h_l_t = tanh(W_H(x) + R_H[l](s))` at depth 0,
`h_l_t = tanh(R_H[l](s))` at deeper levels. -/
def RHNCell.hCand (c : RHNCell α) (A : Acts α) (x s : List α) (l : ℕ) : List α :=
  (if l = 0 then eadd (c.W_H.apply x) ((c.R_H l).apply s)
   else (c.R_H l).apply s).map A.tanh

/-- The transform gate at depth `l`:
`t_l_t = sigmoid(W_T(x) + R_T[l](s))` at depth 0,
`t_l_t = sigmoid(R_T[l](s))` at deeper levels. -/
def RHNCell.tGate (c : RHNCell α) (A : Acts α) (x s : List α) (l : ℕ) : List α :=
  (if l = 0 then eadd (c.W_T.apply x) ((c.R_T l).apply s)
   else (c.R_T l).apply s).map A.sigmoid

/-- The carry gate at depth `l` (decoupled mode only):
`c_l_t = sigmoid(W_C(x) + R_C[l](s))` at depth 0,
`c_l_t = sigmoid(R_C[l](s))` at deeper levels. -/
def RHNCell.cGate (c : RHNCell α) (A : Acts α) (x s : List α) (l : ℕ) : List α :=
  (if l = 0 then eadd (c.W_C.apply x) ((c.R_C l).apply s)
   else (c.R_C l).apply s).map A.sigmoid

/-- One iteration of the depth loop in `RHNCell.forward`: the state
update `s = h_l_t*t_l_t + (1 - t_l_t)*s` in coupled-gate mode and
`s = h_l_t*t_l_t + c_l_t*s` in decoupled mode. -/
def RHNCell.stepDepth (c : RHNCell α) (A : Acts α) (x s : List α) (l : ℕ) :
    List α :=
  if c.couple_gates then
    eadd (emul (c.hCand A x s l) (c.tGate A x s l)) (emul (oneMinus (c.tGate A x s l)) s)
  else
    eadd (emul (c.hCand A x s l) (c.tGate A x s l)) (emul (c.cGate A x s l) s)

/-- The depth loop `for l in range(self.rec_depth)` of `RHNCell.forward`,
over an explicit list of depth indices, returning the final state and the
list `preds` of each depth's resulting state in depth order. -/
def RHNCell.runDepths (c : RHNCell α) (A : Acts α) (x : List α) :
    List ℕ → List α → List α × List (List α)
  | [], s => (s, [])
  | l :: ls, s =>
    let s' := c.stepDepth A x s l
    let r := c.runDepths A x ls s'
    (r.1, s' :: r.2)

/-- The body of `RHNCell.forward`: runs the depth loop from the incoming state; when
`use_HSG` is set it retains the incoming state as `s_prime_tm1`, applies
the HSG layer to the candidate final state, and replaces the last
recorded per-depth state (`preds.pop(); preds.append(s)`) with the HSG
output, which is also the returned state. -/
def RHNCell.forward (c : RHNCell α) (A : Acts α) (x s : List α) :
    List α × List (List α) :=
  let r := c.runDepths A x (List.range c.rec_depth) s
  if c.use_HSG then
    let s2 := c.HSG.forward A r.1 s
    (s2, r.2.dropLast ++ [s2])
  else r

/-- Read a 3-D nested-list tensor at an index triple, with default `0`
(out-of-range reads only occur at indices outside the tensor's extent). -/
def get3 (t : List (List (List α))) (i j k : ℕ) : α :=
  ((t.getD i []).getD j []).getD k 0

/-- Read a 4-D nested-list tensor at an index quadruple, default `0`. -/
def get4 (t : List (List (List (List α)))) (i j k l : ℕ) : α :=
  (((t.getD i []).getD j []).getD k []).getD l 0

/-- The dimension triple of a 3-D nested-list tensor (lengths along the
leading slice at each level, as `torch.Tensor.shape` for a rectangular
tensor). -/
def dims3 (t : List (List (List α))) : ℕ × ℕ × ℕ :=
  (t.length, (t.headD []).length, ((t.headD []).headD []).length)

/-- The dimension quadruple of a 4-D nested-list tensor. -/
def dims4 (t : List (List (List (List α)))) : ℕ × ℕ × ℕ × ℕ :=
  (t.length, (t.headD []).length, ((t.headD []).headD []).length,
   (((t.headD []).headD []).headD []).length)

/-- Model of `Tensor.permute(1, 0, 2)` on a 3-D tensor:
`new[a][b][c] = old[b][a][c]`, taking dimensions from `dims3`. -/
def permute102 (t : List (List (List α))) : List (List (List α)) :=
  (List.range (dims3 t).2.1).map (fun a =>
    (List.range (dims3 t).1).map (fun b =>
      (List.range (dims3 t).2.2).map (fun c => get3 t b a c)))

/-- Model of `Tensor.permute(2, 0, 3, 1)` on a 4-D tensor:
`new[a][b][c][e] = old[b][e][a][c]`; the new shape is
`(s2, s0, s3, s1)` in terms of the old shape `(s0, s1, s2, s3)`. -/
def permute2031 (t : List (List (List (List α)))) :
    List (List (List (List α))) :=
  (List.range (dims4 t).2.2.1).map (fun a =>
    (List.range (dims4 t).1).map (fun b =>
      (List.range (dims4 t).2.2.2).map (fun c =>
        (List.range (dims4 t).2.1).map (fun e => get4 t b e a c))))

/-- Parameters and configuration of the `RHN` encoder module.  The two
`nn.BatchNorm1d` modules are kept abstract as functions on batched
matrices (their learned statistics and affine parameters are opaque
here); they are only applied when `use_batch_norm` is set. -/
structure RHNModel (α : Type) where
  cell : RHNCell α
  n_units : ℕ
  use_batch_norm : Bool
  bn_x : List (List α) → List (List α)
  bn_s : List (List α) → List (List α)

/-- One batched application of the inner `RHNCell` inside `RHN.forward`:
the cell acts row-wise on the batch, and `torch.stack(preds)` turns the
per-sample depth lists (each `rec_depth × n_units`) into a
`(depth, batch, units)` tensor whose entry `[d][b]` is sample `b`'s
state at depth `d`. -/
def RHNModel.cellB (M : RHNModel α) (A : Acts α) (xt s : List (List α)) :
    List (List α) × List (List (List α)) :=
  let rs := List.zipWith (fun xi si => M.cell.forward A xi si) xt s
  let ps := rs.map (fun r => r.2)
  (rs.map (fun r => r.1),
   (List.range ((ps.headD []).length)).map (fun d => ps.map (fun p => p.getD d [])))

/-- The time loop `for t in range(x.shape[1])` of `RHN.forward` over an
explicit list of timestep indices, collecting the per-timestep final
states (`preds`) and the per-timestep depth stacks (`highway_states`). -/
def RHNModel.loop (M : RHNModel α) (A : Acts α) (x : List (List (List α))) :
    List ℕ → List (List α) →
      List (List (List α)) × List (List (List (List α)))
  | [], _ => ([], [])
  | t :: ts, s =>
    let xt := x.map (fun row => row.getD t [])
    let inp := if M.use_batch_norm then M.bn_x xt else xt
    let scur := if M.use_batch_norm then M.bn_s s else s
    let r := M.cellB A inp scur
    let rest := M.loop A x ts r.1
    (r.1 :: rest.1, r.2 :: rest.2)

/-- The body of `RHN.forward`: state initialized to a zero `(batch, n_units)` matrix,
time loop over `x.shape[1]` timesteps, then
`preds = stack(preds).permute(1, 0, 2)` (shape `(batch, T, units)`) and
`highway_states = stack(highway_states).permute(2, 0, 3, 1)`. -/
def RHNModel.forward (M : RHNModel α) (A : Acts α) (x : List (List (List α))) :
    List (List (List α)) × List (List (List (List α))) :=
  let s0 := List.replicate x.length (List.replicate M.n_units (0 : α))
  let r := M.loop A x (List.range ((x.headD []).length)) s0
  (permute102 r.1, permute2031 r.2)

/-- Model of `ConvBlock._calc_padding`: the Python source computes
`int(((lin - 1) * stride + 1 + dilation * (kernel - 1) - lin) / 2)`;
`int(...)` truncates toward zero, which is `Int.tdiv` on the exact
integer numerator. -/
def calcPadding (lin kernel stride dilation : ℤ) : ℤ :=
  Int.tdiv ((lin - 1) * stride + 1 + dilation * (kernel - 1) - lin) 2

/-- Parameters of one `ConvBlock`: the `nn.Conv1d` weight
(`filters × in_channels × kernel`) and bias, the kernel size, the padding
(computed from `_calc_padding` at construction), and the `timesteps`
target length of the adaptive max-pool. -/
structure ConvBlock (α : Type) where
  weight : List (List (List α))
  bias : List α
  filter_size : ℕ
  padding : ℕ
  timesteps : ℕ

/-- Model of `nn.Conv1d` on one sample (`channels × length`): zero-pad each
channel by `pad` on both sides, then cross-correlate each filter with
all input channels and add the filter bias; the output length is
`L + 2*pad - (kernel - 1)`. -/
def conv1d (w : List (List (List α))) (b : List α) (kernel pad : ℕ)
    (x : List (List α)) : List (List α) :=
  let L := (x.headD []).length
  let xpad := x.map (fun r => List.replicate pad (0 : α) ++ r ++ List.replicate pad 0)
  List.zipWith (fun wf bf =>
    (List.range (L + 2 * pad + 1 - kernel)).map (fun i =>
      bf + (List.zipWith (fun wc xc =>
        ((List.range kernel).map (fun j => wc.getD j 0 * xc.getD (i + j) 0)).sum)
        wf xpad).sum)) w b

/-- Model of `nn.AdaptiveMaxPool1d(T)` on one channel row of length `L`:
output `i` is the maximum of the slice from `floor(i*L/T)` to
`ceil((i+1)*L/T)` (the PyTorch window formula).  The fold base `0` is
only reached on an empty slice, which does not occur for `L ≥ T ≥ 1`;
in this model the pool always follows a ReLU, whose outputs are `≥ 0`. -/
def adaptiveMaxPool1d (T : ℕ) (r : List α) : List α :=
  let L := r.length
  (List.range T).map (fun i =>
    let lo := i * L / T
    let hi := ((i + 1) * L + T - 1) / T
    ((r.drop lo).take (hi - lo)).foldr max 0)

/-- Steps of `ConvBlock.forward` on one sample (`T × channels`):
`permute(0, 2, 1)` to channels-first, convolution, ReLU, adaptive
max-pool back to `timesteps`, and `permute(0, 2, 1)` back.  The
per-sample `permute(0, 2, 1)` is the matrix transpose, modelled by
re-indexing as in the other permutes. -/
def transpose2 (m : List (List α)) : List (List α) :=
  (List.range ((m.headD []).length)).map (fun j =>
    (List.range m.length).map (fun i => (m.getD i []).getD j 0))

/-- See `transpose2`; this is the body of `ConvBlock.forward`. -/
def ConvBlock.forward (cb : ConvBlock α) (x : List (List α)) :
    List (List α) :=
  let x1 := transpose2 x
  let x2 := conv1d cb.weight cb.bias cb.filter_size cb.padding x1
  let x3 := x2.map (fun r => r.map (fun v => max v 0))
  let x4 := x3.map (adaptiveMaxPool1d cb.timesteps)
  transpose2 x4

/-- Parameters and configuration of the `HARHN` module.  The
`nn.ModuleList`s `convs`, `T_k`, `U_k`, `v_k` are modelled as functions
from the layer/depth index; only indices below `n_convs` respectively
`rec_depth` are used. -/
structure HARHNModel (α : Type) where
  n_convs : ℕ
  n_units_dec : ℕ
  rec_depth : ℕ
  T : ℕ
  convs : ℕ → ConvBlock α
  conv_to_enc : Linear α
  encoder : RHNModel α
  decoder : RHNCell α
  T_k : ℕ → Linear α
  U_k : ℕ → Linear α
  v_k : ℕ → Linear α
  W_tilda : Linear α
  V_tilda : Linear α
  W : Linear α
  V : Linear α

/-- Model of `torch.softmax` along a vector: exponentiate every entry and divide
by the sum of the exponentials. -/
def softmaxL (A : Acts α) (v : List α) : List α :=
  let es := v.map A.exp
  es.map (fun e => e / es.sum)

/-- The depth-`k` attention scores `e_t_k` of `HARHN.forward` for one
sample: the decoder state `s` is broadcast (`unsqueeze(1).repeat(1, T, 1)`)
across the `T` encoder timesteps and
`e_t_k = v_k(tanh(T_k(s_rep) + U_k(h_t_k)))`; since `v_k` maps to one
unit, each timestep's score is the single entry of that output. -/
def HARHN.scoresK (P : HARHNModel α) (A : Acts α) (s : List α)
    (hk : List (List α)) (k : ℕ) : List α :=
  let s_rep := List.replicate P.T s
  List.zipWith (fun srow hrow =>
    (((P.v_k k).apply
      ((eadd ((P.T_k k).apply srow) ((P.U_k k).apply hrow)).map A.tanh)).getD 0 0))
    s_rep hk

/-- The weights `alpha_t_k = torch.softmax(e_t_k, 1)`: the depth-`k` attention
weights over the `T` encoder timesteps for one sample. -/
def HARHN.alphaK (P : HARHNModel α) (A : Acts α) (s : List α)
    (hk : List (List α)) (k : ℕ) : List α :=
  softmaxL A (HARHN.scoresK P A s hk k)

/-- Sum of a list of vectors (`torch.sum(..., dim=1)` over the stacked
rows). -/
def vsum : List (List α) → List α
  | [] => []
  | [v] => v
  | v :: vs => eadd v (vsum vs)

/-- The depth-`k` context vector `d_t_k` of `HARHN.forward` for one
sample, exactly as the source computes it, including the two discarded
projection applications (`_ = self.U_k[k](h_t_k)` and
`_ = self.T_k[k](s_rep)`) that are bound and never used. -/
def HARHN.contextK (P : HARHNModel α) (A : Acts α) (s : List α)
    (hk : List (List α)) (k : ℕ) : List α :=
  let s_rep := List.replicate P.T s
  let _u := hk.map (P.U_k k).apply
  let _t := s_rep.map (P.T_k k).apply
  let alpha := HARHN.alphaK P A s hk k
  vsum (List.zipWith (fun hrow a => hrow.map (fun v => a * v)) hk alpha)

/-- Variant of `HARHN.contextK` in which each projection is computed
exactly once per depth per decoder timestep: the discarded applications
are removed and the two projections feeding the score are bound once and
reused. -/
def HARHN.contextKOnce (P : HARHNModel α) (A : Acts α) (s : List α)
    (hk : List (List α)) (k : ℕ) : List α :=
  let s_rep := List.replicate P.T s
  let es := List.zipWith (fun srow hrow =>
    let ts := (P.T_k k).apply srow
    let us := (P.U_k k).apply hrow
    (((P.v_k k).apply ((eadd ts us).map A.tanh)).getD 0 0)) s_rep hk
  let alpha := softmaxL A es
  vsum (List.zipWith (fun hrow a => hrow.map (fun v => a * v)) hk alpha)

/-- The depth-`k` slice `h_t_k = h_t_l[..., k]` of one sample's
`(T, units, depth)` block of the encoder's permuted per-depth tensor. -/
def sliceK (hb : List (List (List α))) (k : ℕ) : List (List α) :=
  hb.map (fun trow => trow.map (fun urow => urow.getD k 0))

/-- The decoder time loop `for t in range(self.T)` of `HARHN.forward` on
one sample: at each step the fused context `d_t` concatenates the
per-depth contexts, `y_tilda_t = W_tilda(y[:, t, :]) + V_tilda(d_t)`, and
the decoder `RHNCell` advances the state (its per-depth output is
discarded).  The loop carries the last fused context, which the final
readout uses after the loop. -/
def HARHN.decodeLoop (P : HARHNModel α) (A : Acts α)
    (hb : List (List (List α))) (ys : List (List α)) :
    List ℕ → List α → List α → List α × List α
  | [], s, d => (s, d)
  | t :: ts, s, _ =>
    let d_t := ((List.range P.rec_depth).map (fun k =>
      HARHN.contextK P A s (sliceK hb k) k)).flatten
    let y_tilda := eadd (P.W_tilda.apply (ys.getD t []))
      (P.V_tilda.apply d_t)
    let s' := (P.decoder.forward A y_tilda s).1
    HARHN.decodeLoop P A hb ys ts s' d_t

/-- Same loop with `HARHN.contextKOnce` in place of `HARHN.contextK`. -/
def HARHN.decodeLoopOnce (P : HARHNModel α) (A : Acts α)
    (hb : List (List (List α))) (ys : List (List α)) :
    List ℕ → List α → List α → List α × List α
  | [], s, d => (s, d)
  | t :: ts, s, _ =>
    let d_t := ((List.range P.rec_depth).map (fun k =>
      HARHN.contextKOnce P A s (sliceK hb k) k)).flatten
    let y_tilda := eadd (P.W_tilda.apply (ys.getD t []))
      (P.V_tilda.apply d_t)
    let s' := (P.decoder.forward A y_tilda s).1
    HARHN.decodeLoopOnce P A hb ys ts s' d_t

/-- The body of `HARHN.forward`: the convolution stack and the `conv_to_enc`
projection act per sample and per timestep row, the `RHN` encoder runs
batched, and the decoder loop runs per sample on the sample's slice of
the encoder's per-depth tensor, starting from a zero decoder state; the
final prediction is `W(s) + V(d_t)` with the last state and last fused
context. -/
def HARHN.forward (P : HARHNModel α) (A : Acts α)
    (x y : List (List (List α))) : List (List α) :=
  let xc := x.map (fun sample =>
    ((List.range P.n_convs).foldl (fun acc i => (P.convs i).forward acc) sample).map
      P.conv_to_enc.apply)
  let enc := P.encoder.forward A xc
  List.zipWith (fun hb ys =>
    let r := HARHN.decodeLoop P A hb ys (List.range P.T)
      (List.replicate P.n_units_dec (0 : α)) []
    eadd (P.W.apply r.1) (P.V.apply r.2)) enc.2 y

/-- Variant of `HARHN.forward` whose attention computes each projection
exactly once (see `HARHN.contextKOnce`); everything else is identical. -/
def HARHN.forwardOnce (P : HARHNModel α) (A : Acts α)
    (x y : List (List (List α))) : List (List α) :=
  let xc := x.map (fun sample =>
    ((List.range P.n_convs).foldl (fun acc i => (P.convs i).forward acc) sample).map
      P.conv_to_enc.apply)
  let enc := P.encoder.forward A xc
  List.zipWith (fun hb ys =>
    let r := HARHN.decodeLoopOnce P A hb ys (List.range P.T)
      (List.replicate P.n_units_dec (0 : α)) []
    eadd (P.W.apply r.1) (P.V.apply r.2)) enc.2 y

/-- Constructor check of `RHN.__init__`: it runs `assert rec_depth > 0` before building any
layer; a failing `assert` raises at construction time.  The check is
modelled as an `Option`, `none` standing for the raised
`AssertionError`. -/
def RHN.initCheck (rec_depth : ℤ) : Option Unit :=
  if rec_depth > 0 then some () else none

/-- Constructor check of `HARHN.__init__`: it runs `assert n_conv_layers > 0`, then constructs
the `ConvBlock`s (no checks), then `RHN(...)` whose own constructor
asserts `rec_depth > 0`; so an invalid recurrence depth also fails
during `HARHN` construction, before any forward pass. -/
def HARHN.initCheck (n_conv_layers rec_depth : ℤ) : Option Unit :=
  if n_conv_layers > 0 then RHN.initCheck rec_depth else none

/-- Activation pack over `ℚ` used for concrete evaluation of the
structural properties (shapes, lengths, discarded computations), whose
truth does not depend on the actual activation functions; the constant
`1/2` sigmoid also realizes the gate constraint of the
coupled/decoupled equivalence witness. -/
def qActs : Acts ℚ :=
  { tanh := fun v => v, sigmoid := fun _ => 1 / 2, exp := fun v => v }

/-- A concrete one-unit `nn.Linear` over `ℚ`. -/
def qLin : Linear ℚ := { weight := [[1]], bias := [0] }

/-- A concrete coupled-gate, two-depth, one-unit `RHNCell` over `ℚ`. -/
def qCell : RHNCell ℚ :=
  { rec_depth := 2, n_units := 1, couple_gates := true, use_HSG := false,
    W_H := qLin, W_T := qLin, W_C := qLin,
    R_H := fun _ => qLin, R_T := fun _ => qLin, R_C := fun _ => qLin,
    HSG := { W_R := qLin, W_F := qLin } }

/-- The spec's description of the depth recursion, transcribed from its
words: `specDepthState … d` is the running state after `d` micro-layers;
at depth 0 the candidate and the gates see `x` and `s`, at deeper levels
only the recurrent weights apply to the running state, and the state
updates by `h*t + (1-t)*s` (coupled) or `h*t + c*s` (decoupled). -/
def specDepthState (c : RHNCell α) (A : Acts α) (x s0 : List α) : ℕ → List α
  | 0 => s0
  | d + 1 =>
    let s := specDepthState c A x s0 d
    let h := (if d = 0 then eadd (c.W_H.apply x) ((c.R_H d).apply s)
              else (c.R_H d).apply s).map A.tanh
    let t := (if d = 0 then eadd (c.W_T.apply x) ((c.R_T d).apply s)
              else (c.R_T d).apply s).map A.sigmoid
    if c.couple_gates then eadd (emul h t) (emul (oneMinus t) s)
    else
      let cg := (if d = 0 then eadd (c.W_C.apply x) ((c.R_C d).apply s)
                 else (c.R_C d).apply s).map A.sigmoid
      eadd (emul h t) (emul cg s)

/-- The decoupled variant of the concrete cell, whose constant `1/2`
sigmoid makes the carry gate equal `1 -` the transform gate. -/
def qCellD : RHNCell ℚ := { qCell with couple_gates := false }

/-- A linear layer maps into `n` units: its weight has `n` rows and its
bias `n` entries (`nn.Linear(in_feats, n)`). -/
def Linear.outDim (L : Linear α) (n : ℕ) : Prop :=
  L.weight.length = n ∧ L.bias.length = n

/-- Well-formedness of an `RHNCell` as its constructor builds it for
`n_units = n`: every layer used by the configuration maps into `n`
units (`W_C`/`R_C` exist only in decoupled mode, the HSG layers only
when `use_HSG`). -/
structure RHNCell.WF (c : RHNCell α) (n : ℕ) : Prop where
  hWH : c.W_H.outDim n
  hWT : c.W_T.outDim n
  hWC : c.couple_gates = false → c.W_C.outDim n
  hRH : ∀ l < c.rec_depth, (c.R_H l).outDim n
  hRT : ∀ l < c.rec_depth, (c.R_T l).outDim n
  hRC : c.couple_gates = false → ∀ l < c.rec_depth, (c.R_C l).outDim n
  hWR : c.use_HSG = true → c.HSG.W_R.outDim n
  hWFg : c.use_HSG = true → c.HSG.W_F.outDim n

/-- A concrete three-unit `nn.Linear` over `ℚ` (one input feature). -/
def qLin3 : Linear ℚ := { weight := [[0], [0], [0]], bias := [0, 0, 0] }

/-- A concrete one-depth, three-unit encoder over `ℚ` without batch
normalization. -/
def qRHN : RHNModel ℚ :=
  { cell :=
    { rec_depth := 1, n_units := 3, couple_gates := true, use_HSG := false,
      W_H := qLin3, W_T := qLin3, W_C := qLin3,
      R_H := fun _ => qLin3, R_T := fun _ => qLin3, R_C := fun _ => qLin3,
      HSG := { W_R := qLin3, W_F := qLin3 } },
    n_units := 3, use_batch_norm := false,
    bn_x := fun m => m, bn_s := fun m => m }

/-- Model of `torch.sigmoid` over the reals: `1 / (1 + exp(-x))`. -/
noncomputable def sigmoidR (x : ℝ) : ℝ := 1 / (1 + Real.exp (-x))

/-- The real activation pack: `torch.tanh`, `torch.sigmoid` and the
exponential inside `torch.softmax`. -/
noncomputable def realActs : Acts ℝ :=
  { tanh := Real.tanh, sigmoid := sigmoidR, exp := Real.exp }

/-- A concrete one-unit real linear layer. -/
noncomputable def rLin : Linear ℝ := { weight := [[0]], bias := [0] }

/-- A concrete real convolution block. -/
noncomputable def rConv : ConvBlock ℝ :=
  { weight := [[[0]]], bias := [0], filter_size := 1, padding := 0,
    timesteps := 1 }

/-- A concrete one-depth, one-unit real cell. -/
noncomputable def rCell : RHNCell ℝ :=
  { rec_depth := 1, n_units := 1, couple_gates := true, use_HSG := false,
    W_H := rLin, W_T := rLin, W_C := rLin,
    R_H := fun _ => rLin, R_T := fun _ => rLin, R_C := fun _ => rLin,
    HSG := { W_R := rLin, W_F := rLin } }

/-- A concrete real `HARHN` configuration with lookback 1 and depth 1. -/
noncomputable def rHARHN : HARHNModel ℝ :=
  { n_convs := 1, n_units_dec := 1, rec_depth := 1, T := 1,
    convs := fun _ => rConv, conv_to_enc := rLin,
    encoder :=
      { cell := rCell, n_units := 1, use_batch_norm := false,
        bn_x := fun m => m, bn_s := fun m => m },
    decoder := rCell,
    T_k := fun _ => rLin, U_k := fun _ => rLin, v_k := fun _ => rLin,
    W_tilda := rLin, V_tilda := rLin, W := rLin, V := rLin }

/-! ### Theorems -/

/-- C5 (counterexample): the spec formula
`floor(((T-1) + (kernel-1) - T)/2)` does not give the padding the code
computes at `T = 15`, `kernel = 5` (the code yields `2`, the spec
formula `1`). -/
theorem C5_counterexample :
    calcPadding 15 5 1 1 ≠ ((15 - 1) + (5 - 1) - 15 : ℤ) / 2 := by decide

/-- C5 (amended): for every lookback `T` and kernel size `≥ 1`, the
padding computed by `ConvBlock._calc_padding` with the default stride
and dilation equals `floor(((T-1)*1 + 1 + (kernel-1) - T)/2)`, i.e.
`floor((kernel-1)/2)`. -/
theorem C5_padding_eq_floor_kernel_sub_one_half (T k : ℤ) (hk : 1 ≤ k) :
    calcPadding T k 1 1 = (k - 1) / 2 := by
  have h1 : (T - 1) * 1 + 1 + 1 * (k - 1) - T = k - 1 := by ring
  have h2 : (0 : ℤ) ≤ k - 1 := by omega
  unfold calcPadding
  rw [h1, Int.tdiv_eq_ediv h2 (by norm_num)]

/-- C5 (witness): the amended formula at `T = 15`, `kernel = 5`. -/
theorem C5_padding_witness :
    (1 : ℤ) ≤ 5 ∧ calcPadding 15 5 1 1 = ((5 : ℤ) - 1) / 2 :=
  ⟨by decide, C5_padding_eq_floor_kernel_sub_one_half 15 5 (by decide)⟩

/-- C8: construction is eagerly validated: `RHN` accepts exactly the
positive recurrence depths, and `HARHN` accepts exactly the
configurations with a positive convolution-layer count and a positive
recurrence depth (the latter enforced by the nested `RHN` constructor),
all before any forward pass. -/
theorem C8_eager_construction_validation (d nc : ℤ) :
    (RHN.initCheck d = some () ↔ 0 < d) ∧
      (HARHN.initCheck nc d = some () ↔ 0 < nc ∧ 0 < d) := by
  unfold HARHN.initCheck RHN.initCheck
  constructor
  · split_ifs with h <;> simp [h]
  · split_ifs with h h2 <;> simp_all

/-- The attention context with the discarded projections is the same
function as the attention context that computes each projection once:
both reduce to the same score/softmax/weighted-sum expression. -/
theorem contextK_eq_contextKOnce (P : HARHNModel α) (A : Acts α)
    (s : List α) (hk : List (List α)) (k : ℕ) :
    HARHN.contextK P A s hk k = HARHN.contextKOnce P A s hk k := rfl

/-- The decoder loops built on the two context functions agree. -/
theorem decodeLoop_eq_decodeLoopOnce (P : HARHNModel α) (A : Acts α)
    (hb : List (List (List α))) (ys : List (List α)) (ts : List ℕ)
    (s d : List α) :
    HARHN.decodeLoop P A hb ys ts s d =
      HARHN.decodeLoopOnce P A hb ys ts s d := by
  induction ts generalizing s d with
  | nil => rfl
  | cons t ts ih =>
    simp only [HARHN.decodeLoop, HARHN.decodeLoopOnce,
      contextK_eq_contextKOnce, ih]

/-- C7: `HARHN.forward` returns the same output as the variant that
removes the two discarded projection applications and computes each
projection exactly once per depth per decoder timestep; the discarded
computations have no effect on the result. -/
theorem C7_discarded_projections_no_effect (P : HARHNModel α) (A : Acts α)
    (x y : List (List (List α))) :
    HARHN.forward P A x y = HARHN.forwardOnce P A x y := by
  simp only [HARHN.forward, HARHN.forwardOnce, decodeLoop_eq_decodeLoopOnce]

/-- One code-side depth step from the spec-side state agrees with the
spec-side recursion. -/
theorem stepDepth_specDepthState (c : RHNCell α) (A : Acts α) (x s0 : List α)
    (d : ℕ) :
    c.stepDepth A x (specDepthState c A x s0 d) d =
      specDepthState c A x s0 (d + 1) := rfl

/-- The depth loop over the index segment `[a, a+n)` started from the
spec-side state after `a` depths computes the spec-side states
`a+1 … a+n`, recorded in depth order. -/
theorem runDepths_range' (c : RHNCell α) (A : Acts α) (x s0 : List α) :
    ∀ (n a : ℕ),
      c.runDepths A x (List.range' a n) (specDepthState c A x s0 a) =
        (specDepthState c A x s0 (a + n),
         (List.range' a n).map (fun i => specDepthState c A x s0 (i + 1))) := by
  intro n
  induction n with
  | zero => intro a; rfl
  | succ n ih =>
    intro a
    have hr : List.range' a (n + 1) = a :: List.range' (a + 1) n := by
      simp [List.range'_succ]
    rw [hr]
    simp only [RHNCell.runDepths, stepDepth_specDepthState, ih (a + 1),
      List.map_cons]
    have : a + 1 + n = a + (n + 1) := by omega
    rw [this]

/-- C2: for every input `x`, incoming state `s` and valid depth index,
`RHNCell.forward` (without the separate HSG post-processing, which claim
C4 covers) computes exactly the spec's recursion: candidate
`h = tanh(W_H·x + R_H[0]·s)` and gates at depth 0, the `x`-free formulas
at deeper depths, the coupled update `h*t + (1-t)*s` or decoupled update
`h*t + c*s`, recording each depth's resulting state in depth order. -/
theorem C2_cell_computes_spec_formulas (c : RHNCell α) (A : Acts α)
    (x s : List α) (hH : c.use_HSG = false) :
    c.forward A x s =
      (specDepthState c A x s c.rec_depth,
       (List.range c.rec_depth).map (fun d => specDepthState c A x s (d + 1))) := by
  have h0 : specDepthState c A x s 0 = s := rfl
  have := runDepths_range' c A x s c.rec_depth 0
  rw [h0] at this
  simp only [RHNCell.forward, hH, Bool.false_eq_true, if_false,
    List.range_eq_range', this, Nat.zero_add]

/-- C2 (witness): the equality evaluated on a concrete two-depth cell. -/
theorem C2_witness :
    qCell.forward qActs [1] [0] =
      (specDepthState qCell qActs [1] [0] qCell.rec_depth,
       (List.range qCell.rec_depth).map
         (fun d => specDepthState qCell qActs [1] [0] (d + 1))) :=
  C2_cell_computes_spec_formulas qCell qActs [1] [0] rfl

/-- The depth loop records one state per visited depth index. -/
theorem runDepths_length (c : RHNCell α) (A : Acts α) (x : List α) :
    ∀ (ls : List ℕ) (s : List α), (c.runDepths A x ls s).2.length = ls.length := by
  intro ls
  induction ls with
  | nil => intro s; rfl
  | cons l ls ih => intro s; simp [RHNCell.runDepths, ih]

/-- The final state of the depth loop is the last recorded state. -/
theorem runDepths_getLast (c : RHNCell α) (A : Acts α) (x : List α) :
    ∀ (ls : List ℕ) (s : List α), ls ≠ [] →
      (c.runDepths A x ls s).2.getLast? = some (c.runDepths A x ls s).1 := by
  intro ls
  induction ls with
  | nil => intro s h; exact absurd rfl h
  | cons l ls ih =>
    intro s _
    cases ls with
    | nil => rfl
    | cons l2 ls2 =>
      have := ih (c.stepDepth A x s l) (by simp)
      simp only [RHNCell.runDepths] at this ⊢
      rw [List.getLast?_cons_cons]
      exact this

/-- C9: for every configuration with a positive recurrence depth
(coupled or decoupled, HSG on or off — with depth 0 the Python code
raises before returning), the state returned by `RHNCell.forward` is the
last element of the per-depth state sequence it returns, and that
sequence has length exactly `rec_depth`. -/
theorem C9_returned_state_is_last_and_length (c : RHNCell α) (A : Acts α)
    (x s : List α) (hd : 0 < c.rec_depth) :
    (c.forward A x s).2.length = c.rec_depth ∧
      (c.forward A x s).2.getLast? = some (c.forward A x s).1 := by
  have hlen : (c.runDepths A x (List.range c.rec_depth) s).2.length = c.rec_depth := by
    rw [runDepths_length]; exact List.length_range c.rec_depth
  unfold RHNCell.forward
  cases hH : c.use_HSG with
  | false =>
    simp only [Bool.false_eq_true, if_false]
    refine ⟨hlen, ?_⟩
    exact runDepths_getLast c A x (List.range c.rec_depth) s
      (by simp [List.range_eq_nil]; omega)
  | true =>
    simp only [if_true]
    constructor
    · rw [List.length_append, List.length_dropLast, hlen]
      simp; omega
    · simp

/-- C9 (witness): evaluated on the concrete two-depth cell. -/
theorem C9_witness :
    (qCell.forward qActs [1] [0]).2.length = qCell.rec_depth ∧
      (qCell.forward qActs [1] [0]).2.getLast? =
        some (qCell.forward qActs [1] [0]).1 :=
  C9_returned_state_is_last_and_length qCell qActs [1] [0] (by decide)

/-- Flipping `couple_gates` to `true` leaves every shared parameter and
the depth step of a carry-constrained decoupled cell unchanged:
when the carry gate equals `1 -` the transform gate at every depth, the
decoupled update `h*t + c*s` is the coupled update `h*t + (1-t)*s`. -/
theorem stepDepth_couple_of_gate_constraint (c : RHNCell α) (A : Acts α)
    (x : List α) (hcg : c.couple_gates = false)
    (hgate : ∀ (l : ℕ) (s' : List α),
      c.cGate A x s' l = oneMinus (c.tGate A x s' l))
    (s' : List α) (l : ℕ) :
    c.stepDepth A x s' l =
      ({ c with couple_gates := true } : RHNCell α).stepDepth A x s' l := by
  simp only [RHNCell.stepDepth, hcg, Bool.false_eq_true, if_false, if_true]
  rw [hgate l s']
  rfl

/-- C3: for every input `x` and state `s`, if the decoupled carry gate
equals `1 -` the transform gate at every depth, then `RHNCell.forward`
in decoupled mode produces outputs identical to `RHNCell.forward` in
coupled mode with the same shared parameters. -/
theorem C3_decoupled_eq_coupled_under_carry_constraint (c : RHNCell α)
    (A : Acts α) (x s : List α) (hcg : c.couple_gates = false)
    (hgate : ∀ (l : ℕ) (s' : List α),
      c.cGate A x s' l = oneMinus (c.tGate A x s' l)) :
    c.forward A x s = ({ c with couple_gates := true } : RHNCell α).forward A x s := by
  have hrun : ∀ (ls : List ℕ) (s' : List α),
      c.runDepths A x ls s' =
        ({ c with couple_gates := true } : RHNCell α).runDepths A x ls s' := by
    intro ls
    induction ls with
    | nil => intro s'; rfl
    | cons l ls ih =>
      intro s'
      simp only [RHNCell.runDepths,
        stepDepth_couple_of_gate_constraint c A x hcg hgate s' l, ih]
  simp only [RHNCell.forward, hrun]

/-- C3 (witness): the equivalence evaluated on the concrete decoupled
cell whose gates satisfy the carry constraint. -/
theorem C3_witness :
    qCellD.forward qActs [1] [0] =
      ({ qCellD with couple_gates := true } : RHNCell ℚ).forward qActs [1] [0] :=
  C3_decoupled_eq_coupled_under_carry_constraint qCellD qActs [1] [0] rfl
    (fun l s' => by
      cases l with
      | zero =>
        simp [RHNCell.cGate, RHNCell.tGate, qCellD, qCell, qLin, qActs,
          Linear.apply, eadd, oneMinus, dot]
        norm_num
      | succ n =>
        simp [RHNCell.cGate, RHNCell.tGate, qCellD, qCell, qLin, qActs,
          Linear.apply, eadd, oneMinus, dot]
        try norm_num)

/-- Toggling `use_HSG` does not change the depth loop: the depth step
reads only the gate/candidate parameters, which the flag update leaves
untouched. -/
theorem runDepths_hsg_invariant (c : RHNCell α) (A : Acts α) (x : List α)
    (b : Bool) :
    ∀ (ls : List ℕ) (s : List α),
      (({ c with use_HSG := b } : RHNCell α).runDepths A x ls s) =
        c.runDepths A x ls s := by
  intro ls
  induction ls with
  | nil => intro s; rfl
  | cons l ls ih =>
    intro s
    simp only [RHNCell.runDepths, ih]
    rfl

/-- C4: running `RHNCell.forward` with `use_hsg=True` changes only the
last entry of the per-depth state sequence relative to `use_hsg=False`:
every entry at a depth below `rec_depth - 1` coincides with the non-HSG
computation, and the HSG run's last entry is `HSGLayer.forward` applied
to the non-HSG final state and the incoming state. -/
theorem C4_hsg_changes_only_last_entry (c : RHNCell α) (A : Acts α)
    (x s : List α) (d : ℕ) (hd0 : 0 < c.rec_depth) (hd : d < c.rec_depth - 1) :
    ((({ c with use_HSG := true } : RHNCell α).forward A x s).2.getD d [] =
      (({ c with use_HSG := false } : RHNCell α).forward A x s).2.getD d []) ∧
    ((({ c with use_HSG := true } : RHNCell α).forward A x s).2.getD
        (c.rec_depth - 1) [] =
      c.HSG.forward A
        ((({ c with use_HSG := false } : RHNCell α).forward A x s).1) s) := by
  have hF : (({ c with use_HSG := false } : RHNCell α).forward A x s) =
      c.runDepths A x (List.range c.rec_depth) s := by
    simp only [RHNCell.forward, runDepths_hsg_invariant]
    rfl
  have hT : (({ c with use_HSG := true } : RHNCell α).forward A x s) =
      (c.HSG.forward A (c.runDepths A x (List.range c.rec_depth) s).1 s,
       (c.runDepths A x (List.range c.rec_depth) s).2.dropLast ++
         [c.HSG.forward A (c.runDepths A x (List.range c.rec_depth) s).1 s]) := by
    simp only [RHNCell.forward, runDepths_hsg_invariant]
    rfl
  have hlen : (c.runDepths A x (List.range c.rec_depth) s).2.length = c.rec_depth := by
    rw [runDepths_length]; exact List.length_range c.rec_depth
  have hdl : (c.runDepths A x (List.range c.rec_depth) s).2.dropLast.length =
      c.rec_depth - 1 := by
    rw [List.length_dropLast, hlen]
  rw [hF, hT]
  constructor
  · rw [List.getD_eq_getElem?_getD, List.getElem?_append_left (by omega),
      List.getElem?_dropLast, List.getD_eq_getElem?_getD]
    have : d < (c.runDepths A x (List.range c.rec_depth) s).2.length - 1 := by omega
    simp [this]
  · rw [List.getD_eq_getElem?_getD, List.getElem?_append_right (by omega), hdl]
    simp

/-- C4 (witness): the frame property evaluated on the concrete
two-depth cell at depth index 0. -/
theorem C4_witness :
    ((({ qCell with use_HSG := true } : RHNCell ℚ).forward qActs [1] [0]).2.getD 0 [] =
      (({ qCell with use_HSG := false } : RHNCell ℚ).forward qActs [1] [0]).2.getD 0 []) ∧
    ((({ qCell with use_HSG := true } : RHNCell ℚ).forward qActs [1] [0]).2.getD
        (qCell.rec_depth - 1) [] =
      qCell.HSG.forward qActs
        ((({ qCell with use_HSG := false } : RHNCell ℚ).forward qActs [1] [0]).1) [0]) :=
  C4_hsg_changes_only_last_entry qCell qActs [1] [0] 0 (by decide) (by decide)

/-- Length of `eadd`. -/
theorem length_eadd (a b : List α) : (eadd a b).length = min a.length b.length := by
  simp [eadd]

/-- Length of `emul`. -/
theorem length_emul (a b : List α) : (emul a b).length = min a.length b.length := by
  simp [emul]

/-- Length of `oneMinus`. -/
theorem length_oneMinus (a : List α) : (oneMinus a).length = a.length := by
  simp [oneMinus]

/-- Length of a linear layer's output. -/
theorem Linear.length_apply (L : Linear α) (v : List α) :
    (L.apply v).length = min L.weight.length L.bias.length := by
  simp [Linear.apply]

/-- A layer into `n` units yields an `n`-vector on any input. -/
theorem Linear.length_apply_of {L : Linear α} {n : ℕ} (h : L.outDim n)
    (v : List α) : (L.apply v).length = n := by
  simp [Linear.length_apply, h.1, h.2]

/-- The candidate vector has `n` entries. -/
theorem length_hCand {c : RHNCell α} {n : ℕ} (hWF : c.WF n) (A : Acts α)
    (x s : List α) {l : ℕ} (hl : l < c.rec_depth) :
    (c.hCand A x s l).length = n := by
  unfold RHNCell.hCand
  have hr := Linear.length_apply_of (hWF.hRH l hl) s
  by_cases h0 : l = 0
  · subst h0
    simp [length_eadd, Linear.length_apply_of hWF.hWH, hr]
  · simp [h0, hr]

/-- The transform gate has `n` entries. -/
theorem length_tGate {c : RHNCell α} {n : ℕ} (hWF : c.WF n) (A : Acts α)
    (x s : List α) {l : ℕ} (hl : l < c.rec_depth) :
    (c.tGate A x s l).length = n := by
  unfold RHNCell.tGate
  have hr := Linear.length_apply_of (hWF.hRT l hl) s
  by_cases h0 : l = 0
  · subst h0
    simp [length_eadd, Linear.length_apply_of hWF.hWT, hr]
  · simp [h0, hr]

/-- The carry gate has `n` entries (decoupled mode). -/
theorem length_cGate {c : RHNCell α} {n : ℕ} (hWF : c.WF n)
    (hcg : c.couple_gates = false) (A : Acts α) (x s : List α) {l : ℕ}
    (hl : l < c.rec_depth) :
    (c.cGate A x s l).length = n := by
  unfold RHNCell.cGate
  have hr := Linear.length_apply_of (hWF.hRC hcg l hl) s
  by_cases h0 : l = 0
  · subst h0
    simp [length_eadd, Linear.length_apply_of (hWF.hWC hcg), hr]
  · simp [h0, hr]

/-- One depth step preserves the state width `n`. -/
theorem length_stepDepth {c : RHNCell α} {n : ℕ} (hWF : c.WF n) (A : Acts α)
    (x s : List α) {l : ℕ} (hl : l < c.rec_depth) (hs : s.length = n) :
    (c.stepDepth A x s l).length = n := by
  unfold RHNCell.stepDepth
  cases hcg : c.couple_gates with
  | true =>
    simp [length_eadd, length_emul, length_oneMinus,
      length_hCand hWF A x s hl, length_tGate hWF A x s hl, hs]
  | false =>
    simp [length_eadd, length_emul,
      length_hCand hWF A x s hl, length_tGate hWF A x s hl,
      length_cGate hWF hcg A x s hl, hs]

/-- The depth loop preserves the state width `n` and records only
`n`-vectors. -/
theorem runDepths_lengths {c : RHNCell α} {n : ℕ} (hWF : c.WF n) (A : Acts α)
    (x : List α) :
    ∀ (ls : List ℕ) (s : List α), (∀ l ∈ ls, l < c.rec_depth) →
      s.length = n →
      (c.runDepths A x ls s).1.length = n ∧
        ∀ p ∈ (c.runDepths A x ls s).2, p.length = n := by
  intro ls
  induction ls with
  | nil => intro s _ hs; exact ⟨hs, by simp [RHNCell.runDepths]⟩
  | cons l ls ih =>
    intro s hmem hs
    have hl : l < c.rec_depth := hmem l (by simp)
    have hstep := length_stepDepth hWF A x s hl hs
    have := ih (c.stepDepth A x s l) (fun l2 h2 => hmem l2 (by simp [h2])) hstep
    refine ⟨this.1, ?_⟩
    intro p hp
    simp only [RHNCell.runDepths, List.mem_cons] at hp
    rcases hp with h | h
    · rw [h]; exact hstep
    · exact this.2 p h

/-- The layer `HSGLayer.forward` preserves the state width `n`. -/
theorem length_HSG {g : HSGLayer α} {n : ℕ} (hR : g.W_R.outDim n)
    (hF : g.W_F.outDim n) (A : Acts α) (sl sp : List α) (hsl : sl.length = n)
    (hsp : sp.length = n) : (g.forward A sl sp).length = n := by
  unfold HSGLayer.forward
  simp [length_eadd, length_emul, length_oneMinus,
    Linear.length_apply_of hR, Linear.length_apply_of hF, hsl, hsp]

/-- The cell `RHNCell.forward` returns an `n`-wide state and records only
`n`-vectors. -/
theorem forward_lengths {c : RHNCell α} {n : ℕ} (hWF : c.WF n) (A : Acts α)
    (x s : List α) (hs : s.length = n) :
    (c.forward A x s).1.length = n ∧
      ∀ p ∈ (c.forward A x s).2, p.length = n := by
  have hrun := runDepths_lengths hWF A x (List.range c.rec_depth) s
    (fun l hl => List.mem_range.mp hl) hs
  unfold RHNCell.forward
  cases hH : c.use_HSG with
  | false => simpa using hrun
  | true =>
    simp only [if_true]
    have hhsg := length_HSG (hWF.hWR hH) (hWF.hWFg hH) A
      (c.runDepths A x (List.range c.rec_depth) s).1 s hrun.1 hs
    refine ⟨by simpa using hhsg, ?_⟩
    intro p hp
    simp only [List.append_eq, List.mem_append, List.mem_singleton] at hp
    rcases hp with h | h
    · exact hrun.2 p (List.dropLast_subset _ h)
    · rw [h]; simpa using hhsg

/-- With a positive recurrence depth, `RHNCell.forward` records exactly
`rec_depth` per-depth states (shared helper for the shape claims). -/
theorem forward_preds_length (c : RHNCell α) (A : Acts α) (x s : List α)
    (hd : 0 < c.rec_depth) :
    (c.forward A x s).2.length = c.rec_depth := by
  have hlen : (c.runDepths A x (List.range c.rec_depth) s).2.length = c.rec_depth := by
    rw [runDepths_length]; exact List.length_range c.rec_depth
  unfold RHNCell.forward
  cases hH : c.use_HSG with
  | false => simpa using hlen
  | true =>
    simp only [if_true]
    rw [List.length_append, List.length_dropLast, hlen]
    simp; omega

/-- An in-range default read is a member of the list. -/
theorem getD_mem_of_lt {β : Type} {l : List β} {i : ℕ} (d : β)
    (h : i < l.length) : l.getD i d ∈ l := by
  rw [List.getD_eq_getElem?_getD, List.getElem?_eq_getElem h]
  simp [List.getElem_mem]

/-- Dimensions of the per-timestep depth stack built by `RHN.forward`:
`rec_depth` slices, each holding one `n_units`-vector per sample. -/
theorem cellB_dims {M : RHNModel α} (A : Acts α) (hWF : M.cell.WF M.n_units)
    (hd : 0 < M.cell.rec_depth) (xt s : List (List α))
    (hlen : xt.length = s.length) (hB : 0 < s.length)
    (hrows : ∀ r ∈ s, r.length = M.n_units) :
    (M.cellB A xt s).2.length = M.cell.rec_depth ∧
      ((M.cellB A xt s).2.headD []).length = s.length ∧
      (((M.cellB A xt s).2.headD []).headD []).length = M.n_units := by
  cases xt with
  | nil =>
    rw [← hlen] at hB
    simp at hB
  | cons x0 xts =>
    cases s with
    | nil => simp at hB
    | cons s0 ss =>
      have hxs : xts.length = ss.length := by simpa using hlen
      have hs0 : s0.length = M.n_units := hrows s0 (by simp)
      have hfl := forward_preds_length M.cell A x0 s0 hd
      have hfr := (forward_lengths hWF A x0 s0 hs0).2
      have hmem : (M.cell.forward A x0 s0).2.getD 0 [] ∈ (M.cell.forward A x0 s0).2 :=
        getD_mem_of_lt [] (by rw [hfl]; omega)
      obtain ⟨k, hk⟩ : ∃ k, M.cell.rec_depth = k + 1 :=
        ⟨M.cell.rec_depth - 1, by omega⟩
      simp only [RHNModel.cellB, List.zipWith_cons_cons, List.map_cons,
        List.headD_cons, hfl, hk, List.range_succ_eq_map]
      refine ⟨by simp, ?_, ?_⟩
      · simp [List.length_zipWith, hxs]
      · exact hfr _ hmem

/-- The time loop records one depth stack per timestep. -/
theorem loop_snd_length (M : RHNModel α) (A : Acts α)
    (x : List (List (List α))) :
    ∀ (ts : List ℕ) (s : List (List α)),
      (M.loop A x ts s).2.length = ts.length := by
  intro ts
  induction ts with
  | nil => intro s; rfl
  | cons t ts ih => intro s; simp [RHNModel.loop, ih]

/-- The first recorded depth stack of the time loop is the batched cell
stack of the first timestep (after the optional batch normalization). -/
theorem loop_snd_headD (M : RHNModel α) (A : Acts α)
    (x : List (List (List α))) (t : ℕ) (ts : List ℕ) (s : List (List α)) :
    (M.loop A x (t :: ts) s).2.headD [] =
      (M.cellB A
        (if M.use_batch_norm then M.bn_x (x.map (fun row => row.getD t []))
         else x.map (fun row => row.getD t []))
        (if M.use_batch_norm then M.bn_s s else s)).2 := rfl

/-- The shape of `permute(2, 0, 3, 1)` output when the batch, time and
unit extents are positive. -/
theorem dims4_permute2031 (t : List (List (List (List α))))
    (h0 : 0 < (dims4 t).1) (h2 : 0 < (dims4 t).2.2.1)
    (h3 : 0 < (dims4 t).2.2.2) :
    dims4 (permute2031 t) =
      ((dims4 t).2.2.1, (dims4 t).1, (dims4 t).2.2.2, (dims4 t).2.1) := by
  rcases ht : dims4 t with ⟨s0, s1, s2, s3⟩
  rw [ht] at h0 h2 h3
  simp only at h0 h2 h3
  obtain ⟨a, ha⟩ : ∃ a, s2 = a + 1 := ⟨s2 - 1, by omega⟩
  obtain ⟨b, hb⟩ : ∃ b, s0 = b + 1 := ⟨s0 - 1, by omega⟩
  obtain ⟨c, hc⟩ : ∃ c, s3 = c + 1 := ⟨s3 - 1, by omega⟩
  simp only [permute2031, ht, ha, hb, hc]
  simp [dims4, List.range_succ_eq_map]

/-- C1 (amended): the depth-stacked per-depth state tensor returned as
the second output of the encoder `RHN.forward` has shape
`(batch, lookback, units, rec_depth)` — batch before time before units
before depth — for every well-formed configuration with positive batch,
lookback, unit count and depth (matching the source comment
`h_T_L.shape = (batch_size, T, n_units_enc, rec_depth)`). -/
theorem C1_encoder_depth_tensor_shape (M : RHNModel α) (A : Acts α)
    (x : List (List (List α))) (hWF : M.cell.WF M.n_units)
    (hbnX : ∀ m, (M.bn_x m).length = m.length)
    (hbnS : ∀ m, (M.bn_s m).map List.length = m.map List.length)
    (hB : 0 < x.length) (hT : 0 < (x.headD []).length)
    (hD : 0 < M.cell.rec_depth) (hU : 0 < M.n_units) :
    dims4 ((M.forward A x).2) =
      (x.length, (x.headD []).length, M.n_units, M.cell.rec_depth) := by
  have hdims : dims4 ((M.loop A x (List.range ((x.headD []).length))
      (List.replicate x.length (List.replicate M.n_units (0 : α)))).2) =
      ((x.headD []).length, M.cell.rec_depth, x.length, M.n_units) := by
    obtain ⟨m, hm⟩ : ∃ m, (x.headD []).length = m + 1 :=
      ⟨(x.headD []).length - 1, by omega⟩
    rw [hm, List.range_succ_eq_map]
    have hhead := loop_snd_headD M A x 0 (List.map Nat.succ (List.range m))
      (List.replicate x.length (List.replicate M.n_units (0 : α)))
    have hscur_len :
        (if M.use_batch_norm then
          M.bn_s (List.replicate x.length (List.replicate M.n_units (0 : α)))
         else List.replicate x.length (List.replicate M.n_units (0 : α))).length =
        x.length := by
      cases hbn : M.use_batch_norm with
      | true =>
        simp only [if_true]
        have := congrArg List.length
          (hbnS (List.replicate x.length (List.replicate M.n_units (0 : α))))
        simpa using this
      | false => simp
    have hscur_rows : ∀ r ∈ (if M.use_batch_norm then
          M.bn_s (List.replicate x.length (List.replicate M.n_units (0 : α)))
         else List.replicate x.length (List.replicate M.n_units (0 : α))),
        r.length = M.n_units := by
      cases hbn : M.use_batch_norm with
      | true =>
        simp only [if_true]
        intro r hr
        have hmapeq := hbnS (List.replicate x.length (List.replicate M.n_units (0 : α)))
        have : r.length ∈ (M.bn_s (List.replicate x.length
            (List.replicate M.n_units (0 : α)))).map List.length :=
          List.mem_map_of_mem List.length hr
        rw [hmapeq, List.map_replicate] at this
        simpa using List.eq_of_mem_replicate this
      | false =>
        simp only [Bool.false_eq_true, if_false]
        intro r hr
        have := List.eq_of_mem_replicate hr
        simp [this]
    have hinp_len :
        (if M.use_batch_norm then M.bn_x (x.map (fun row => row.getD 0 []))
         else x.map (fun row => row.getD 0 [])).length =
        (if M.use_batch_norm then
          M.bn_s (List.replicate x.length (List.replicate M.n_units (0 : α)))
         else List.replicate x.length (List.replicate M.n_units (0 : α))).length := by
      rw [hscur_len]
      cases hbn : M.use_batch_norm with
      | true => simp [hbnX]
      | false => simp
    have hcb := cellB_dims A hWF hD _ _ hinp_len (by rw [hscur_len]; exact hB)
      hscur_rows
    unfold dims4
    rw [hhead]
    simp only [Prod.mk.injEq]
    refine ⟨?_, ?_, ?_, ?_⟩
    · rw [loop_snd_length]; simp
    · exact hcb.1
    · rw [hcb.2.1]; exact hscur_len
    · exact hcb.2.2
  have hfw : (M.forward A x).2 =
      permute2031 ((M.loop A x (List.range ((x.headD []).length))
        (List.replicate x.length (List.replicate M.n_units (0 : α)))).2) := rfl
  rw [hfw, dims4_permute2031 _ (by rw [hdims]; exact hT) (by rw [hdims]; exact hB)
    (by rw [hdims]; exact hU), hdims]

/-- C1 (counterexample): for batch 1, lookback 2, units 3, depth 1, the
encoder's per-depth tensor does not have the claimed shape
`(batch, units, lookback, depth) = (1, 3, 2, 1)` (its actual shape is
`(batch, lookback, units, depth) = (1, 2, 3, 1)`). -/
theorem C1_counterexample :
    dims4 ((qRHN.forward qActs [[[0], [0]]]).2) ≠ (1, 3, 2, 1) := by decide

/-- C1 (witness): the amended shape statement evaluated on the concrete
encoder at batch 1, lookback 2, units 3, depth 1. -/
theorem C1_witness :
    dims4 ((qRHN.forward qActs [[[0], [0]]]).2) = (1, 2, 3, 1) :=
  C1_encoder_depth_tensor_shape qRHN qActs [[[0], [0]]]
    (RHNCell.WF.mk ⟨rfl, rfl⟩ ⟨rfl, rfl⟩ (fun h => nomatch h)
      (fun l _ => ⟨rfl, rfl⟩) (fun l _ => ⟨rfl, rfl⟩) (fun h => nomatch h)
      (fun h => nomatch h) (fun h => nomatch h))
    (fun m => rfl) (fun m => rfl) (by decide) (by decide) (by decide) (by decide)

/-- The function `tanh` maps into `[-1, 1]`. -/
theorem tanh_mem_Icc (x : ℝ) : -1 ≤ Real.tanh x ∧ Real.tanh x ≤ 1 := by
  have hc := Real.cosh_pos x
  have hsq : Real.sinh x ^ 2 ≤ Real.cosh x ^ 2 := by
    rw [Real.cosh_sq]
    nlinarith
  have habs := abs_le_of_sq_le_sq' hsq hc.le
  rw [Real.tanh_eq_sinh_div_cosh]
  constructor
  · rw [le_div_iff₀ hc]
    nlinarith [habs.1]
  · rw [div_le_one hc]
    exact habs.2

/-- The function `sigmoid` maps into `[0, 1]`. -/
theorem sigmoidR_mem_Icc (x : ℝ) : 0 ≤ sigmoidR x ∧ sigmoidR x ≤ 1 := by
  have he := Real.exp_pos (-x)
  have hd : (0 : ℝ) < 1 + Real.exp (-x) := by linarith
  unfold sigmoidR
  constructor
  · positivity
  · rw [div_le_one hd]
    linarith

/-- Mapping `(· / c)` over a list divides its sum by `c`. -/
theorem sum_map_div (l : List α) (c : α) :
    (l.map (fun e => e / c)).sum = l.sum / c := by
  induction l with
  | nil => simp
  | cons a l ih => simp [ih, add_div]

/-- A pointwise property that holds for the default and every member
holds for any default read. -/
theorem getD_of_forall {β : Type} (P : β → Prop) {l : List β} {d : β}
    (hd : P d) (h : ∀ a ∈ l, P a) (i : ℕ) : P (l.getD i d) := by
  rcases lt_or_le i l.length with hi | hi
  · exact h _ (getD_mem_of_lt d hi)
  · rw [List.getD_eq_getElem?_getD, List.getElem?_eq_none hi]
    exact hd

/-- The real softmax of a nonempty list is a probability vector: every
entry (and the out-of-range default) is non-negative and the entries
sum to 1. -/
theorem softmaxL_prob (v : List ℝ) (hv : v ≠ []) (i : ℕ) :
    0 ≤ (softmaxL realActs v).getD i 0 ∧ (softmaxL realActs v).sum = 1 := by
  have hpos : ∀ e ∈ v.map Real.exp, 0 < e := by
    intro e he
    rcases List.mem_map.mp he with ⟨a, _, rfl⟩
    exact Real.exp_pos a
  have hne : v.map Real.exp ≠ [] := by simpa using hv
  have hS : 0 < (v.map Real.exp).sum := List.sum_pos _ hpos hne
  have hsm : softmaxL realActs v =
      (v.map Real.exp).map (fun e => e / (v.map Real.exp).sum) := rfl
  constructor
  · apply getD_of_forall (fun r => 0 ≤ r) le_rfl
    intro a ha
    rw [hsm] at ha
    rcases List.mem_map.mp ha with ⟨e, he, rfl⟩
    exact div_nonneg (hpos e he).le hS.le
  · rw [hsm, sum_map_div]
    exact div_self hS.ne'

/-- C6: every attention weight vector `alpha_k` computed by the decoder
of `HARHN.forward` (for any decoder state, any sample slice of the
encoder tensor, any depth index) is a probability distribution over the
encoder timesteps: entries are non-negative and sum to 1. -/
theorem C6_attention_weights_prob_dist (P : HARHNModel ℝ) (s : List ℝ)
    (hk : List (List ℝ)) (k i : ℕ) (hT : 0 < P.T) (hkn : hk ≠ []) :
    0 ≤ (HARHN.alphaK P realActs s hk k).getD i 0 ∧
      (HARHN.alphaK P realActs s hk k).sum = 1 := by
  have hkpos : 0 < hk.length := List.length_pos.mpr hkn
  have hlen : 0 < (HARHN.scoresK P realActs s hk k).length := by
    simp only [HARHN.scoresK, List.length_zipWith, List.length_replicate]
    exact lt_min_iff.mpr ⟨hT, hkpos⟩
  exact softmaxL_prob _ (List.ne_nil_of_length_pos hlen) i

/-- C6 (witness): the probability-distribution property of the
attention weights evaluated on the concrete real configuration. -/
theorem C6_witness :
    0 ≤ (HARHN.alphaK rHARHN realActs [0] [[0]] 0).getD 0 0 ∧
      (HARHN.alphaK rHARHN realActs [0] [[0]] 0).sum = 1 :=
  C6_attention_weights_prob_dist rHARHN [0] [[0]] 0 0 (by decide)
    (List.cons_ne_nil _ _)

/-- Every element of a `zipWith` comes from a pair of elements. -/
theorem exists_of_mem_zipWith {β γ δ : Type} (f : β → γ → δ) :
    ∀ (xs : List β) (ys : List γ) (z : δ), z ∈ List.zipWith f xs ys →
      ∃ a ∈ xs, ∃ b ∈ ys, z = f a b := by
  intro xs
  induction xs with
  | nil => intro ys z hz; simp at hz
  | cons a xs ih =>
    intro ys z hz
    cases ys with
    | nil => simp at hz
    | cons b ys =>
      simp only [List.zipWith_cons_cons, List.mem_cons] at hz
      rcases hz with rfl | hz
      · exact ⟨a, by simp, b, by simp, rfl⟩
      · rcases ih ys z hz with ⟨a2, ha2, b2, hb2, rfl⟩
        exact ⟨a2, by simp [ha2], b2, by simp [hb2], rfl⟩

/-- The coupled update `h*t + (1-t)*s` stays in `[-1, 1]` when the
candidate and state entries are in `[-1, 1]` and the gate entries are
in `[0, 1]` (a convex combination). -/
theorem coupled_update_bounded :
    ∀ (h t s : List ℝ), (∀ a ∈ h, -1 ≤ a ∧ a ≤ 1) →
      (∀ b ∈ t, 0 ≤ b ∧ b ≤ 1) → (∀ c2 ∈ s, -1 ≤ c2 ∧ c2 ≤ 1) →
      ∀ v ∈ eadd (emul h t) (emul (oneMinus t) s), -1 ≤ v ∧ v ≤ 1 := by
  intro h
  induction h with
  | nil => intro t s _ _ _ v hv; simp [eadd, emul] at hv
  | cons a h ih =>
    intro t s hh ht hs v hv
    cases t with
    | nil => simp [eadd, emul, oneMinus] at hv
    | cons b t =>
      cases s with
      | nil => simp [eadd, emul, oneMinus] at hv
      | cons c2 s =>
        simp only [oneMinus, List.map_cons, emul, eadd,
          List.zipWith_cons_cons, List.mem_cons] at hv
        rcases hv with rfl | hv
        · have ha := hh a (by simp)
          have hb := ht b (by simp)
          have hc := hs c2 (by simp)
          constructor <;> nlinarith [ha.1, ha.2, hb.1, hb.2, hc.1, hc.2]
        · exact ih t s (fun a2 h2 => hh a2 (by simp [h2]))
            (fun b2 h2 => ht b2 (by simp [h2]))
            (fun c3 h3 => hs c3 (by simp [h3])) v
            (by simpa [eadd, emul, oneMinus] using hv)

/-- The highway blend `g*sp + (1-g)*sl` stays in `[-1, 1]` when the
gate entries are in `[0, 1]` and both states are in `[-1, 1]`. -/
theorem hsg_update_bounded :
    ∀ (g sp sl : List ℝ), (∀ a ∈ g, 0 ≤ a ∧ a ≤ 1) →
      (∀ b ∈ sp, -1 ≤ b ∧ b ≤ 1) → (∀ c2 ∈ sl, -1 ≤ c2 ∧ c2 ≤ 1) →
      ∀ v ∈ eadd (emul g sp) (emul (oneMinus g) sl), -1 ≤ v ∧ v ≤ 1 := by
  intro g
  induction g with
  | nil => intro sp sl _ _ _ v hv; simp [eadd, emul] at hv
  | cons a g ih =>
    intro sp sl hg hp hl v hv
    cases sp with
    | nil => simp [eadd, emul, oneMinus] at hv
    | cons b sp =>
      cases sl with
      | nil => simp [eadd, emul, oneMinus] at hv
      | cons c2 sl =>
        simp only [oneMinus, List.map_cons, emul, eadd,
          List.zipWith_cons_cons, List.mem_cons] at hv
        rcases hv with rfl | hv
        · have ha := hg a (by simp)
          have hb := hp b (by simp)
          have hc := hl c2 (by simp)
          constructor <;> nlinarith [ha.1, ha.2, hb.1, hb.2, hc.1, hc.2]
        · exact ih sp sl (fun a2 h2 => hg a2 (by simp [h2]))
            (fun b2 h2 => hp b2 (by simp [h2]))
            (fun c3 h3 => hl c3 (by simp [h3])) v
            (by simpa [eadd, emul, oneMinus] using hv)

/-- Candidate entries are `tanh` values, hence in `[-1, 1]`. -/
theorem hCand_bounded (c : RHNCell ℝ) (x s : List ℝ) (l : ℕ) :
    ∀ v ∈ c.hCand realActs x s l, -1 ≤ v ∧ v ≤ 1 := by
  intro v hv
  unfold RHNCell.hCand at hv
  rcases List.mem_map.mp hv with ⟨a, _, rfl⟩
  exact tanh_mem_Icc a

/-- Transform-gate entries are `sigmoid` values, hence in `[0, 1]`. -/
theorem tGate_bounded (c : RHNCell ℝ) (x s : List ℝ) (l : ℕ) :
    ∀ v ∈ c.tGate realActs x s l, 0 ≤ v ∧ v ≤ 1 := by
  intro v hv
  unfold RHNCell.tGate at hv
  rcases List.mem_map.mp hv with ⟨a, _, rfl⟩
  exact sigmoidR_mem_Icc a

/-- One coupled depth step preserves elementwise membership in `[-1, 1]`. -/
theorem stepDepth_bounded (c : RHNCell ℝ) (hcg : c.couple_gates = true)
    (x s : List ℝ) (l : ℕ) (hs : ∀ v ∈ s, -1 ≤ v ∧ v ≤ 1) :
    ∀ v ∈ c.stepDepth realActs x s l, -1 ≤ v ∧ v ≤ 1 := by
  unfold RHNCell.stepDepth
  rw [hcg]
  simp only [if_true]
  exact coupled_update_bounded _ _ _ (hCand_bounded c x s l)
    (tGate_bounded c x s l) hs

/-- The coupled depth loop preserves elementwise membership in `[-1, 1]`
for the final state and every recorded state. -/
theorem runDepths_bounded (c : RHNCell ℝ) (hcg : c.couple_gates = true)
    (x : List ℝ) :
    ∀ (ls : List ℕ) (s : List ℝ), (∀ v ∈ s, -1 ≤ v ∧ v ≤ 1) →
      (∀ v ∈ (c.runDepths realActs x ls s).1, -1 ≤ v ∧ v ≤ 1) ∧
        ∀ p ∈ (c.runDepths realActs x ls s).2, ∀ v ∈ p, -1 ≤ v ∧ v ≤ 1 := by
  intro ls
  induction ls with
  | nil => intro s hs; exact ⟨hs, by simp [RHNCell.runDepths]⟩
  | cons l ls ih =>
    intro s hs
    have hstep := stepDepth_bounded c hcg x s l hs
    have hrec := ih (c.stepDepth realActs x s l) hstep
    refine ⟨hrec.1, ?_⟩
    intro p hp
    simp only [RHNCell.runDepths, List.mem_cons] at hp
    rcases hp with rfl | hp
    · exact hstep
    · exact hrec.2 p hp

/-- The HSG output stays in `[-1, 1]` for bounded inputs. -/
theorem hsgForward_bounded (g : HSGLayer ℝ) (sl sp : List ℝ)
    (hsl : ∀ v ∈ sl, -1 ≤ v ∧ v ≤ 1) (hsp : ∀ v ∈ sp, -1 ≤ v ∧ v ≤ 1) :
    ∀ v ∈ g.forward realActs sl sp, -1 ≤ v ∧ v ≤ 1 := by
  unfold HSGLayer.forward
  apply hsg_update_bounded
  · intro a ha
    rcases List.mem_map.mp ha with ⟨b, _, rfl⟩
    exact sigmoidR_mem_Icc b
  · exact hsp
  · exact hsl

/-- The cell `RHNCell.forward` in coupled-gate mode (with or without HSG)
preserves elementwise membership in `[-1, 1]` for the returned state and
every per-depth state. -/
theorem cellForward_bounded (c : RHNCell ℝ) (hcg : c.couple_gates = true)
    (x s : List ℝ) (hs : ∀ v ∈ s, -1 ≤ v ∧ v ≤ 1) :
    (∀ v ∈ (c.forward realActs x s).1, -1 ≤ v ∧ v ≤ 1) ∧
      ∀ p ∈ (c.forward realActs x s).2, ∀ v ∈ p, -1 ≤ v ∧ v ≤ 1 := by
  have hrun := runDepths_bounded c hcg x (List.range c.rec_depth) s hs
  unfold RHNCell.forward
  cases hH : c.use_HSG with
  | false => simpa using hrun
  | true =>
    simp only [if_true]
    have hhsg := hsgForward_bounded c.HSG _ s hrun.1 hs
    refine ⟨by simpa using hhsg, ?_⟩
    intro p hp
    simp only [List.append_eq, List.mem_append, List.mem_singleton] at hp
    rcases hp with hp | hp
    · exact hrun.2 p (List.dropLast_subset _ hp)
    · rw [hp]
      exact hhsg

/-- The batched cell application preserves elementwise membership in
`[-1, 1]` for the batched state and every slice of the depth stack. -/
theorem cellB_bounded (M : RHNModel ℝ) (hcg : M.cell.couple_gates = true)
    (xt s : List (List ℝ)) (hs : ∀ r ∈ s, ∀ v ∈ r, -1 ≤ v ∧ v ≤ 1) :
    (∀ r ∈ (M.cellB realActs xt s).1, ∀ v ∈ r, -1 ≤ v ∧ v ≤ 1) ∧
      ∀ q ∈ (M.cellB realActs xt s).2, ∀ r ∈ q, ∀ v ∈ r, -1 ≤ v ∧ v ≤ 1 := by
  have hrs : ∀ z ∈ List.zipWith (fun xi si => M.cell.forward realActs xi si) xt s,
      (∀ v ∈ z.1, -1 ≤ v ∧ v ≤ 1) ∧ ∀ p ∈ z.2, ∀ v ∈ p, -1 ≤ v ∧ v ≤ 1 := by
    intro z hz
    rcases exists_of_mem_zipWith _ xt s z hz with ⟨a, _, b, hb, rfl⟩
    exact cellForward_bounded M.cell hcg a b (hs b hb)
  have h1 : (M.cellB realActs xt s).1 =
      (List.zipWith (fun xi si => M.cell.forward realActs xi si) xt s).map
        (fun r => r.1) := rfl
  have h2 : (M.cellB realActs xt s).2 =
      (List.range ((((List.zipWith (fun xi si => M.cell.forward realActs xi si)
          xt s).map (fun r => r.2)).headD []).length)).map
        (fun d => ((List.zipWith (fun xi si => M.cell.forward realActs xi si)
          xt s).map (fun r => r.2)).map (fun p => p.getD d [])) := rfl
  constructor
  · rw [h1]
    intro r hr
    rcases List.mem_map.mp hr with ⟨z, hz, rfl⟩
    exact (hrs z hz).1
  · rw [h2]
    intro q hq
    rcases List.mem_map.mp hq with ⟨d, _, rfl⟩
    intro r hr
    rcases List.mem_map.mp hr with ⟨p, hp, rfl⟩
    rcases List.mem_map.mp hp with ⟨z, hz, rfl⟩
    exact getD_of_forall (fun row => ∀ v ∈ row, -1 ≤ v ∧ v ≤ 1) (by simp)
      (hrs z hz).2 d

/-- Without batch normalization, the encoder time loop keeps every
recorded state and every depth-stack entry in `[-1, 1]` in coupled-gate
mode. -/
theorem loop_bounded (M : RHNModel ℝ) (hcg : M.cell.couple_gates = true)
    (hbn : M.use_batch_norm = false) (x : List (List (List ℝ))) :
    ∀ (ts : List ℕ) (s : List (List ℝ)),
      (∀ r ∈ s, ∀ v ∈ r, -1 ≤ v ∧ v ≤ 1) →
      (∀ st ∈ (M.loop realActs x ts s).1, ∀ r ∈ st, ∀ v ∈ r, -1 ≤ v ∧ v ≤ 1) ∧
        ∀ q ∈ (M.loop realActs x ts s).2, ∀ d2 ∈ q, ∀ r ∈ d2, ∀ v ∈ r,
          -1 ≤ v ∧ v ≤ 1 := by
  intro ts
  induction ts with
  | nil =>
    intro s hs
    constructor <;> simp [RHNModel.loop]
  | cons t ts ih =>
    intro s hs
    have hcb := cellB_bounded M hcg (x.map (fun row => row.getD t [])) s hs
    have hrec := ih (M.cellB realActs (x.map (fun row => row.getD t [])) s).1 hcb.1
    constructor
    · intro st hst
      simp only [RHNModel.loop, hbn, Bool.false_eq_true, if_false,
        List.mem_cons] at hst
      rcases hst with rfl | hst
      · exact hcb.1
      · exact hrec.1 st hst
    · intro q hq
      simp only [RHNModel.loop, hbn, Bool.false_eq_true, if_false,
        List.mem_cons] at hq
      rcases hq with rfl | hq
      · exact hcb.2
      · exact hrec.2 q hq

/-- A pointwise property of all scalar entries (and of `0`) transfers
to any `get3` read. -/
theorem get3_of_forall {P : ℝ → Prop} (hP0 : P 0) (t : List (List (List ℝ)))
    (h : ∀ a ∈ t, ∀ b ∈ a, ∀ v ∈ b, P v) (i j k : ℕ) : P (get3 t i j k) := by
  unfold get3
  have h1 : ∀ b ∈ t.getD i [], ∀ v ∈ b, P v :=
    getD_of_forall (fun a => ∀ b ∈ a, ∀ v ∈ b, P v) (by simp) h i
  have h2 : ∀ v ∈ (t.getD i []).getD j [], P v :=
    getD_of_forall (fun b => ∀ v ∈ b, P v) (by simp) h1 j
  exact getD_of_forall P hP0 h2 k

/-- A pointwise property of all scalar entries (and of `0`) transfers
to any `get4` read. -/
theorem get4_of_forall {P : ℝ → Prop} (hP0 : P 0)
    (t : List (List (List (List ℝ))))
    (h : ∀ a ∈ t, ∀ b ∈ a, ∀ c2 ∈ b, ∀ v ∈ c2, P v) (i j k l : ℕ) :
    P (get4 t i j k l) := by
  unfold get4
  have h1 : ∀ b ∈ t.getD i [], ∀ c2 ∈ b, ∀ v ∈ c2, P v :=
    getD_of_forall (fun a => ∀ b ∈ a, ∀ c2 ∈ b, ∀ v ∈ c2, P v) (by simp) h i
  have h2 : ∀ c2 ∈ (t.getD i []).getD j [], ∀ v ∈ c2, P v :=
    getD_of_forall (fun b => ∀ c2 ∈ b, ∀ v ∈ c2, P v) (by simp) h1 j
  have h3 : ∀ v ∈ ((t.getD i []).getD j []).getD k [], P v :=
    getD_of_forall (fun c2 => ∀ v ∈ c2, P v) (by simp) h2 k
  exact getD_of_forall P hP0 h3 l

/-- Entries of `permute(1, 0, 2)` are entries of the source (or the
default `0`). -/
theorem permute102_entries {P : ℝ → Prop} (hP0 : P 0)
    (t : List (List (List ℝ))) (h : ∀ a ∈ t, ∀ b ∈ a, ∀ v ∈ b, P v) :
    ∀ a ∈ permute102 t, ∀ b ∈ a, ∀ v ∈ b, P v := by
  intro a ha b hb v hv
  simp only [permute102, List.mem_map] at ha
  rcases ha with ⟨i, _, rfl⟩
  rcases List.mem_map.mp hb with ⟨j, _, rfl⟩
  rcases List.mem_map.mp hv with ⟨k, _, rfl⟩
  exact get3_of_forall hP0 t h j i k

/-- Entries of `permute(2, 0, 3, 1)` are entries of the source (or the
default `0`). -/
theorem permute2031_entries {P : ℝ → Prop} (hP0 : P 0)
    (t : List (List (List (List ℝ))))
    (h : ∀ a ∈ t, ∀ b ∈ a, ∀ c2 ∈ b, ∀ v ∈ c2, P v) :
    ∀ a ∈ permute2031 t, ∀ b ∈ a, ∀ c2 ∈ b, ∀ v ∈ c2, P v := by
  intro a ha b hb c2 hc v hv
  simp only [permute2031, List.mem_map] at ha
  rcases ha with ⟨i, _, rfl⟩
  rcases List.mem_map.mp hb with ⟨j, _, rfl⟩
  rcases List.mem_map.mp hc with ⟨k, _, rfl⟩
  rcases List.mem_map.mp hv with ⟨l, _, rfl⟩
  exact get4_of_forall hP0 t h j l i k

/-- C10: in coupled-gate mode (with or without HSG), `RHNCell.forward`
preserves elementwise membership of the state in `[-1, 1]` — both the
returned state and every per-depth state — for every input `x`; and all
encoder states produced by `RHN.forward` from the zero initial state
(without batch normalization, whose learned rescaling is unbounded) lie
in `[-1, 1]`, including every entry of the permuted state and per-depth
tensors. -/
theorem C10_coupled_state_bounded (c : RHNCell ℝ) (x s : List ℝ)
    (M : RHNModel ℝ) (xx : List (List (List ℝ))) (i j b t u d : ℕ)
    (hcg : c.couple_gates = true) (hs : ∀ v ∈ s, -1 ≤ v ∧ v ≤ 1)
    (hMcg : M.cell.couple_gates = true) (hMbn : M.use_batch_norm = false) :
    (-1 ≤ (c.forward realActs x s).1.getD i 0 ∧
      (c.forward realActs x s).1.getD i 0 ≤ 1) ∧
    (-1 ≤ ((c.forward realActs x s).2.getD j []).getD i 0 ∧
      ((c.forward realActs x s).2.getD j []).getD i 0 ≤ 1) ∧
    (-1 ≤ get3 ((M.forward realActs xx).1) b t u ∧
      get3 ((M.forward realActs xx).1) b t u ≤ 1) ∧
    (-1 ≤ get4 ((M.forward realActs xx).2) b t u d ∧
      get4 ((M.forward realActs xx).2) b t u d ≤ 1) := by
  have hP0 : (-1 : ℝ) ≤ 0 ∧ (0 : ℝ) ≤ 1 := by norm_num
  have hfw := cellForward_bounded c hcg x s hs
  have hs0 : ∀ r ∈ List.replicate xx.length (List.replicate M.n_units (0 : ℝ)),
      ∀ v ∈ r, -1 ≤ v ∧ v ≤ 1 := by
    intro r hr v hv
    rw [List.eq_of_mem_replicate hr] at hv
    rw [List.eq_of_mem_replicate hv]
    exact hP0
  have hloop := loop_bounded M hMcg hMbn xx
    (List.range ((xx.headD []).length))
    (List.replicate xx.length (List.replicate M.n_units (0 : ℝ))) hs0
  have hf1 : (M.forward realActs xx).1 =
      permute102 ((M.loop realActs xx (List.range ((xx.headD []).length))
        (List.replicate xx.length (List.replicate M.n_units (0 : ℝ)))).1) := rfl
  have hf2 : (M.forward realActs xx).2 =
      permute2031 ((M.loop realActs xx (List.range ((xx.headD []).length))
        (List.replicate xx.length (List.replicate M.n_units (0 : ℝ)))).2) := rfl
  refine ⟨?_, ?_, ?_, ?_⟩
  · exact getD_of_forall (fun v => -1 ≤ v ∧ v ≤ 1) hP0 hfw.1 i
  · exact getD_of_forall (fun v => -1 ≤ v ∧ v ≤ 1) hP0
      (getD_of_forall (fun p => ∀ v ∈ p, -1 ≤ v ∧ v ≤ 1) (by simp) hfw.2 j) i
  · rw [hf1]
    exact get3_of_forall hP0 _ (permute102_entries hP0 _ hloop.1) b t u
  · rw [hf2]
    exact get4_of_forall hP0 _ (permute2031_entries hP0 _ hloop.2) b t u d

/-- C10 (witness): the bounds evaluated on the concrete coupled cell
and one-layer encoder at concrete inputs and indices. -/
theorem C10_witness :
    (-1 ≤ (rCell.forward realActs [0] [0]).1.getD 0 0 ∧
      (rCell.forward realActs [0] [0]).1.getD 0 0 ≤ 1) ∧
    (-1 ≤ ((rCell.forward realActs [0] [0]).2.getD 0 []).getD 0 0 ∧
      ((rCell.forward realActs [0] [0]).2.getD 0 []).getD 0 0 ≤ 1) ∧
    (-1 ≤ get3 ((rHARHN.encoder.forward realActs [[[0]]]).1) 0 0 0 ∧
      get3 ((rHARHN.encoder.forward realActs [[[0]]]).1) 0 0 0 ≤ 1) ∧
    (-1 ≤ get4 ((rHARHN.encoder.forward realActs [[[0]]]).2) 0 0 0 0 ∧
      get4 ((rHARHN.encoder.forward realActs [[[0]]]).2) 0 0 0 0 ≤ 1) :=
  C10_coupled_state_bounded rCell [0] [0] rHARHN.encoder [[[0]]] 0 0 0 0 0 0
    rfl
    (fun v hv => by
      rw [List.mem_singleton] at hv
      subst hv
      norm_num)
    rfl rfl
